import Mathlib

/-!
Verification of the bssdb storage core (`src/db/file_store.rs`,
`src/db/page_cache.rs`, `src/db/chunk_cache.rs`) against its design
specification.

The Rust code is shallowly embedded: bytes are `Nat`s (< 256 on real data),
pages are byte lists, files are either page lists (read path) or byte lists
(write path), and fallible or panicking operations return `Option`/`Except`
(`none` models a Rust panic: a failed `assert!`, `unwrap`/`expect`, a
`copy_to_slice` out of bounds, or a `match` with no applicable arm).
-/

/-- `PAGE_SIZE` from `file_store.rs`: size of the fixed on-disk page. -/
def PAGE_SIZE : Nat := 4096

/-- `CHUNK_HEADER_SIZE` from `file_store.rs`: 4-byte overflow count plus
4-byte checksum. -/
def CHUNK_HEADER_SIZE : Nat := 8

/-- One round of the reflected CRC-32 (IEEE polynomial 0xEDB88320) bit loop. -/
def crc32Step (c : Nat) : Nat :=
  (c >>> 1) ^^^ (if c % 2 = 1 then 0xEDB88320 else 0)

/-- Feed one byte into a CRC-32 state (8 bit rounds), as `crc32fast::Hasher::update`
does byte by byte. -/
def crc32Byte (c b : Nat) : Nat :=
  crc32Step (crc32Step (crc32Step (crc32Step
    (crc32Step (crc32Step (crc32Step (crc32Step (c ^^^ b))))))))

/-- CRC-32 (IEEE) of a byte sequence: the checksum computed by
`crc32fast::Hasher::new` / `update` / `finalize` in `file_store.rs`. -/
def crc32 (l : List Nat) : Nat :=
  (l.foldl crc32Byte 0xFFFFFFFF) ^^^ 0xFFFFFFFF

/-- Little-endian encoding of a `u32` into four bytes, as `BufMut::put_u32_le`
writes it in `append_chunk`. -/
def encodeLe32 (n : Nat) : List Nat :=
  [n % 256, n / 256 % 256, n / 256 ^ 2 % 256, n / 256 ^ 3 % 256]

/-- Little-endian `u32` read at byte offset `off`, as `Buf::get_u32_le` reads
the chunk header in `get_chunk`. Missing bytes read as 0. -/
def leU32 (l : List Nat) (off : Nat) : Nat :=
  l.getD off 0 + 256 * (l.getD (off + 1) 0 +
    256 * (l.getD (off + 2) 0 + 256 * l.getD (off + 3) 0))

/-- Split a byte sequence into consecutive `PAGE_SIZE`-byte pages (the last
piece may be short if the input is not page-aligned). -/
def chopPages (l : List Nat) : List (List Nat) :=
  if h : l = [] then []
  else l.take PAGE_SIZE :: chopPages (l.drop PAGE_SIZE)
termination_by l.length
decreasing_by
  have : 0 < l.length := List.length_pos.mpr h
  simp [List.length_drop, PAGE_SIZE]
  omega

/-- `RetrieveError` from `file_store.rs` (the `Io` payload is irrelevant to
the control flow and is dropped). -/
inductive RetrieveError where
  | Io
  | BadChecksum
  | OutOfPages
deriving DecidableEq

/-- `FileStoreTransaction`'s in-memory state: the `page_len` snapshot taken
when the transaction was created (`prior_page_n`) and the buffered
`uncommitted_pages`. -/
structure TxState where
  priorPageN : Nat
  uncommittedPages : List (List Nat)
deriving DecidableEq

/-- `FileStore`'s mutable state: the backing file's bytes and the durable
`page_len` counter. -/
structure StoreState where
  file : List Nat
  pageLen : Nat
deriving DecidableEq

/-- `FileStoreWriter::tx`: snapshot `page_len` into `prior_page_n`, start with
an empty buffer. -/
def mkTx (st : StoreState) : TxState :=
  { priorPageN := st.pageLen, uncommittedPages := [] }

/-- `FileStoreTransaction::append_chunk` from `file_store.rs`, byte for byte,
including its bugs:

* `n_pages` is computed as `len + CHUNK_HEADER_SIZE / PAGE_SIZE` — by Rust
  operator precedence this is `len + (8 / 4096) = len`, not the intended
  `(len + CHUNK_HEADER_SIZE) / PAGE_SIZE` documented by the assert message;
* `none` models the panics: the failed length assert, `pages.next().unwrap()`
  on zero pages, `try_into().expect` on an overflow count ≥ 2^32, and
  `Buf::copy_to_slice` when the payload has fewer bytes than the pages need.

On success, returns the new transaction state, the first page index
(`prior_page_n + buffered page count`) and the overflow page count; the first
page is header (overflow count LE, checksum LE over the payload only)
followed by payload, the rest is payload split across whole pages. -/
def appendChunk (tx : TxState) (chunk : List Nat) : Option (TxState × Nat × Nat) :=
  let len := chunk.length
  if (len + CHUNK_HEADER_SIZE) % PAGE_SIZE = 0 then
    let nPages := len + CHUNK_HEADER_SIZE / PAGE_SIZE
    if nPages = 0 then none
    else if 2 ^ 32 ≤ nPages - 1 then none
    else if len < nPages * PAGE_SIZE - CHUNK_HEADER_SIZE then none
    else
      let payload := chunk.take (nPages * PAGE_SIZE - CHUNK_HEADER_SIZE)
      let checksum := crc32 payload
      let overflowPages := nPages - 1
      let firstPageIndex := tx.priorPageN + tx.uncommittedPages.length
      let firstPage := encodeLe32 overflowPages ++ encodeLe32 checksum ++
        payload.take (PAGE_SIZE - CHUNK_HEADER_SIZE)
      let restPages := chopPages (payload.drop (PAGE_SIZE - CHUNK_HEADER_SIZE))
      some ({ tx with uncommittedPages := tx.uncommittedPages ++ firstPage :: restPages },
        firstPageIndex, overflowPages)
  else none

/-- `FileStore::read_into_pages_vec` from `file_store.rs`: one positional read
into the spare capacity of the page vector.  `file` is the durable file as a
list of pages, `cap` the vector's capacity.  The underlying `pread` returns
`min(requested, bytes available before end of file)` bytes; zero full pages
read is the `OutOfPages` error, otherwise the read pages are appended. -/
def readIntoPagesVec (file : List (List Nat)) (startIdx : Nat)
    (pages : List (List Nat)) (cap : Nat) : Except RetrieveError (List (List Nat)) :=
  let remaining := cap - pages.length
  let avail := file.length - (startIdx + pages.length)
  let readPages := min remaining avail
  if readPages = 0 then .error .OutOfPages
  else .ok (pages ++ (file.drop (startIdx + pages.length)).take readPages)

theorem readIntoPagesVec_ok_length {file : List (List Nat)} {startIdx : Nat}
    {pages pages' : List (List Nat)} {cap : Nat}
    (h : readIntoPagesVec file startIdx pages cap = .ok pages') :
    pages.length < pages'.length := by
  simp only [readIntoPagesVec] at h
  split at h
  · exact absurd h (by simp)
  · rename_i hne
    have hle : min (cap - pages.length) (file.length - (startIdx + pages.length)) ≤
        file.length - (startIdx + pages.length) := Nat.min_le_right _ _
    have := Except.ok.inj h
    subst this
    simp [List.length_take, List.length_drop]
    omega

/-- The `while total_pages > pages.len()` loop in `FileStore::get_chunk`: keep
calling `read_into_pages_vec` until the vector holds `total` pages or a read
fails.  Terminates because every successful read appends at least one page. -/
def readLoop (file : List (List Nat)) (idx cap total : Nat)
    (pages : List (List Nat)) : Except RetrieveError (List (List Nat)) :=
  if total ≤ pages.length then .ok pages
  else
    match h : readIntoPagesVec file idx pages cap with
    | .error e => .error e
    | .ok pages' => readLoop file idx cap total pages'
termination_by total - pages.length
decreasing_by
  have := readIntoPagesVec_ok_length h
  omega

/-- `FileStore::get_chunk` from `file_store.rs`: read `hint + 1` pages, parse
the header of the first page (overflow count, then checksum, both LE `u32`),
truncate an over-read or keep reading an under-read to exactly
`overflow + 1` pages, reassemble, strip the header, recompute CRC-32 over the
content — and, exactly as the source does, fail with `BadChecksum` when the
stored and recomputed checksums are EQUAL, returning the content when they
differ (the source's comparison is inverted). -/
def getChunk (file : List (List Nat)) (idx hint : Nat) :
    Except RetrieveError (List Nat) :=
  match readIntoPagesVec file idx [] (hint + 1) with
  | .error e => .error e
  | .ok pages =>
    let first := pages.headD []
    let overflow := leU32 first 0
    let checksum := leU32 first 4
    let total := overflow + 1
    let pagesRes : Except RetrieveError (List (List Nat)) :=
      if total < pages.length then .ok (pages.take total)
      else if pages.length < total then
        readLoop file idx (max (hint + 1) total) total pages
      else .ok pages
    match pagesRes with
    | .error e => .error e
    | .ok pages2 =>
      let content := pages2.flatten.drop CHUNK_HEADER_SIZE
      if checksum = crc32 content then .error .BadChecksum
      else .ok content

/-- Hint-free description of what `get_chunk` computes, used to show the
hint only affects I/O batching: read the header from page `idx`, and if the
declared `overflow + 1` pages fit in the file, apply the (inverted) checksum
comparison to their reassembled content; otherwise fail with `OutOfPages`. -/
def getChunkSpec (file : List (List Nat)) (idx : Nat) :
    Except RetrieveError (List Nat) :=
  if file.length ≤ idx then .error .OutOfPages
  else
    let first := file.getD idx []
    let overflow := leU32 first 0
    let checksum := leU32 first 4
    let total := overflow + 1
    if idx + total ≤ file.length then
      let content := ((file.drop idx).take total).flatten.drop CHUNK_HEADER_SIZE
      if checksum = crc32 content then .error .BadChecksum
      else .ok content
    else .error .OutOfPages

/-- Modelled from the spec: the §4.1 `encode` contract (the intended chunk
encoder, since the source's `append_chunk` cannot produce pages — see
`appendChunk`).  Splits the payload into `ceil((len + 8) / PAGE_SIZE)` pages;
the first 8 bytes are the header: overflow page count then CRC-32 of the
payload, both little-endian; remaining bytes are payload, zero-padded to a
whole page. -/
def specEncode (payload : List Nat) : List (List Nat) :=
  let total := (payload.length + CHUNK_HEADER_SIZE + PAGE_SIZE - 1) / PAGE_SIZE
  let body := payload ++
    List.replicate (total * PAGE_SIZE - CHUNK_HEADER_SIZE - payload.length) 0
  chopPages (encodeLe32 (total - 1) ++ encodeLe32 (crc32 payload) ++ body)

/-- Outcome of one `ring.write_at` submission during `commit`: either some
number of bytes were written (possibly fewer than requested — a short write)
or the operation failed with an I/O error. -/
inductive WriteRes where
  | wrote (n : Nat)
  | ioErr
deriving DecidableEq

/-- Positional file write (the effect of `pwrite` at byte offset `pos`):
bytes `[pos, pos + d.length)` become `d`, any gap past the old end of file
reads back as zeros, and all other bytes are unchanged. -/
def writeBytes (f : List Nat) (pos : Nat) (d : List Nat) : List Nat :=
  (List.range (max f.length (pos + d.length))).map fun i =>
    if pos ≤ i ∧ i < pos + d.length then d.getD (i - pos) 0 else f.getD i 0

/-- The `while bytes.len() > total_written` loop in
`FileStoreTransaction::commit`: submit writes of the remaining suffix at
`startPos + totalWritten` until the whole extent is written or an I/O error
occurs.  The `oracle` lists the outcome of each successive submission (a
short write makes the loop continue, never an error); `none` means the
oracle was exhausted with the extent still unwritten (the loop would issue
another write).  The error result carries the partially-written file. -/
def commitWrites (bytes : List Nat) (startPos : Nat) (oracle : List WriteRes)
    (file : List Nat) (totalWritten : Nat) : Option (Except (List Nat) (List Nat)) :=
  if bytes.length ≤ totalWritten then some (.ok file)
  else
    match oracle with
    | [] => none
    | .ioErr :: _ => some (.error file)
    | .wrote n :: rest =>
      let m := min n (bytes.length - totalWritten)
      commitWrites bytes startPos rest
        (writeBytes file (startPos + totalWritten) ((bytes.drop totalWritten).take m))
        (totalWritten + m)

/-- `FileStoreTransaction::commit` from `file_store.rs`: assert the buffer is
non-empty (`none` models the `assert!(n_pages > 0)` panic), write the whole
buffered extent contiguously starting at `page_len * PAGE_SIZE` (looping on
short writes), then `fsync` with drain ordering (`fsyncOk` is its outcome),
and only after a successful barrier advance `page_len` by the buffered page
count.  Returns the store state after the call together with the call's
result; on any I/O error `page_len` is unchanged. -/
def commit (st : StoreState) (tx : TxState) (oracle : List WriteRes)
    (fsyncOk : Bool) : Option (StoreState × Except Unit Unit) :=
  let nPages := tx.uncommittedPages.length
  if nPages = 0 then none
  else
    let bytes := tx.uncommittedPages.flatten
    let startingPos := st.pageLen * PAGE_SIZE
    match commitWrites bytes startingPos oracle st.file 0 with
    | none => none
    | some (.error f) => some ({ st with file := f }, .error ())
    | some (.ok f) =>
      if fsyncOk then
        some ({ file := f, pageLen := st.pageLen + nPages }, .ok ())
      else some ({ st with file := f }, .error ())

/-- The operations a writer can perform on its handle; `dropTx` is dropping
the open transaction without committing. -/
inductive WriterOp where
  | beginTx
  | append (chunk : List Nat)
  | dropTx

/-- One step of a writer session: the store state plus the at-most-one open
transaction (`FileStoreTransaction` mutably borrows the writer, so a second
`tx()` before the first ends is impossible; `none` models that exclusion and
the panics inside `append_chunk`).  `dropTx` runs no destructor —
`FileStoreTransaction` has no `Drop` impl — so it only discards the buffer. -/
def stepOp (s : StoreState × Option TxState) (op : WriterOp) :
    Option (StoreState × Option TxState) :=
  match op with
  | .beginTx =>
    match s.2 with
    | none => some (s.1, some (mkTx s.1))
    | some _ => none
  | .append c =>
    match s.2 with
    | some tx => (appendChunk tx c).map fun r => (s.1, some r.1)
    | none => none
  | .dropTx =>
    match s.2 with
    | some _ => some (s.1, none)
    | none => none

/-- Run a list of writer operations from a starting session state. -/
def runOps (s : StoreState × Option TxState) :
    List WriterOp → Option (StoreState × Option TxState)
  | [] => some s
  | op :: ops =>
    match stepOp s op with
    | none => none
    | some s' => runOps s' ops

/-- State of one `CacheShard` in `page_cache.rs`: the completed-result LRU
(most recent first) and the keys with an in-flight load. -/
structure ShardState where
  cache : List (Nat × List Nat)
  loads : List Nat
deriving DecidableEq

/-- `LruCache::get`-style lookup in a shard's completed-result cache. -/
def lruLookup (c : List (Nat × List Nat)) (idx : Nat) : Option (List Nat) :=
  (c.find? fun p => p.1 == idx).map Prod.snd

/-- `LruCache::put` with capacity `cap`: insert as most recent, replacing any
old entry for the key and evicting the least recently used beyond `cap`. -/
def lruPut (cap : Nat) (c : List (Nat × List Nat)) (idx : Nat) (d : List Nat) :
    List (Nat × List Nat) :=
  ((idx, d) :: c.filter fun p => p.1 != idx).take cap

/-- What `CacheShard::get` in `page_cache.rs` decides to do for a request:
return the cached payload, attach to the in-flight load, or start a fresh
load against the file store. -/
inductive GetAction where
  | hit (data : List Nat)
  | join
  | fresh
deriving DecidableEq

/-- The lookup logic of `CacheShard::get` (`page_cache.rs` lines 29–39 and
the fresh-load registration): cached result wins, then an in-flight load,
otherwise a new load is started. -/
def cacheShardGet (s : ShardState) (idx : Nat) : GetAction :=
  match lruLookup s.cache idx with
  | some d => .hit d
  | none => if s.loads.contains idx then .join else .fresh

/-- Registering a fresh load for `idx` (`loads.insert(idx, future)`). -/
def startLoad (s : ShardState) (idx : Nat) : ShardState :=
  { s with loads := idx :: s.loads }

/-- The completion block of the load future in `CacheShard::get`
(`page_cache.rs` lines 41–48): `if let Ok(data) = res { cache.put(idx, data) };
loads.remove(&idx)` — a success is inserted into the LRU, an error inserts
nothing, and the in-flight marker is removed in both cases. -/
def onLoadComplete (cap : Nat) (s : ShardState) (idx : Nat)
    (res : Except RetrieveError (List Nat)) : ShardState :=
  { cache :=
      match res with
      | .ok d => lruPut cap s.cache idx d
      | .error _ => s.cache,
    loads := s.loads.filter fun j => j != idx }

/-- `use_cached_load` from `chunk_cache.rs`: reuse a cached shared load only
if it is still pending (`peek()` is `None`) or resolved `Ok`. -/
def useCachedLoad (load : Option (Except RetrieveError (List Nat))) : Bool :=
  match load with
  | some (.ok _) => true
  | some (.error _) => false
  | none => true

/-- The decision in `ChunkCache::get` (`chunk_cache.rs` lines 23–35): reuse
the stored shared load when `use_cached_load` approves, otherwise start a
fresh load and store it.  The shard maps an index to the `peek()` state of
its stored load; returns `true` when a fresh load is started. -/
def chunkCacheGet (shard : List (Nat × Option (Except RetrieveError (List Nat))))
    (idx : Nat) : Bool :=
  match (shard.find? fun p => p.1 == idx).map Prod.snd with
  | some load => !useCachedLoad load
  | none => true

/-- `lock_file_for_writing` from `file_store.rs`, including its bug: the
`flock(fd, LOCK_EX | LOCK_NB)` status is matched against `0 => Ok` and
`1 => Err(last_os_error())`, but `flock` reports failure by returning `-1`,
which no arm matches (`none`); there is also no `AlreadyLocked` error
anywhere in the source — the error arm wraps a raw `io::Error`. -/
def lockFileForWriting (flockStatus : Int) : Option (Except Unit Unit) :=
  if flockStatus = 0 then some (.ok ())
  else if flockStatus = 1 then some (.error ())
  else none

/-! ## Helper lemmas -/

/-- `append_chunk` panics on every chunk it does not reject outright: by
operator precedence `n_pages = len + (8 / 4096) = len`, so for any non-empty
payload the copy loop needs `len * PAGE_SIZE - 8` payload bytes but only
`len` are available, and `copy_to_slice` panics. -/
theorem appendChunk_always_panics (tx : TxState) (chunk : List Nat)
    (hpos : 0 < chunk.length) : appendChunk tx chunk = none := by
  simp only [appendChunk]
  split
  · have h0 : CHUNK_HEADER_SIZE / PAGE_SIZE = 0 := by decide
    rw [h0, Nat.add_zero]
    rw [if_neg (by omega)]
    by_cases h32 : 2 ^ 32 ≤ chunk.length - 1
    · rw [if_pos h32]
    · rw [if_neg h32, if_pos (by simp only [PAGE_SIZE, CHUNK_HEADER_SIZE]; omega)]
  · rfl

theorem writeBytes_length (f : List Nat) (pos : Nat) (d : List Nat) :
    (writeBytes f pos d).length = max f.length (pos + d.length) := by
  simp [writeBytes]

theorem writeBytes_getD (f : List Nat) (pos : Nat) (d : List Nat) (i : Nat) :
    (writeBytes f pos d).getD i 0 =
      if pos ≤ i ∧ i < pos + d.length then d.getD (i - pos) 0 else f.getD i 0 := by
  by_cases hi : i < max f.length (pos + d.length)
  · rw [writeBytes, List.getD_eq_getElem _ _ (by simpa using hi)]
    simp
  · rw [List.getD_eq_default _ _ (by simpa [writeBytes_length] using hi)]
    push_neg at hi
    rw [if_neg (by omega)]
    rw [List.getD_eq_default _ _ (by omega)]

theorem list_ext_getD {l1 l2 : List Nat} (hlen : l1.length = l2.length)
    (h : ∀ i, l1.getD i 0 = l2.getD i 0) : l1 = l2 := by
  apply List.ext_getElem hlen
  intro i h1 h2
  have hi := h i
  rwa [List.getD_eq_getElem _ _ h1, List.getD_eq_getElem _ _ h2] at hi

theorem writeBytes_nil (f : List Nat) (pos : Nat) (h : pos ≤ f.length) :
    writeBytes f pos [] = f := by
  apply list_ext_getD
  · simp [writeBytes_length]; omega
  · intro i
    rw [writeBytes_getD]
    rw [if_neg (by simp only [List.length_nil]; omega)]

theorem writeBytes_compose (f : List Nat) (pos : Nat) (d : List Nat) (m : Nat)
    (hm : m ≤ d.length) :
    writeBytes (writeBytes f pos (d.take m)) (pos + m) (d.drop m) =
      writeBytes f pos d := by
  apply list_ext_getD
  · simp [writeBytes_length]; omega
  · intro i
    rw [writeBytes_getD, writeBytes_getD, writeBytes_getD]
    simp only [List.length_drop, List.length_take]
    by_cases h1 : pos + m ≤ i ∧ i < pos + m + (d.length - m)
    · rw [if_pos h1, if_pos (by omega)]
      have : (d.drop m).getD (i - (pos + m)) 0 = d.getD (m + (i - (pos + m))) 0 := by
        rcases Nat.lt_or_ge (m + (i - (pos + m))) d.length with hlt | hge
        · rw [List.getD_eq_getElem _ _ (by simp only [List.length_drop]; omega),
            List.getD_eq_getElem _ _ hlt, List.getElem_drop]
        · rw [List.getD_eq_default _ _ (by simp only [List.length_drop]; omega),
            List.getD_eq_default _ _ (by omega)]
      rw [this]
      congr 1
      omega
    · rw [if_neg h1]
      by_cases h2 : pos ≤ i ∧ i < pos + min m d.length
      · rw [if_pos h2, if_pos (by omega)]
        rcases Nat.lt_or_ge (i - pos) m with hlt | hge
        · rcases Nat.lt_or_ge (i - pos) d.length with hlt2 | hge2
          · rw [List.getD_eq_getElem _ _ (by simp; omega),
              List.getD_eq_getElem _ _ hlt2, List.getElem_take]
          · omega
        · omega
      · rw [if_neg (by omega), if_neg (by omega)]

theorem writeBytes_take_below (f : List Nat) (pos : Nat) (d : List Nat) (P : Nat)
    (h1 : P ≤ pos) (h2 : P ≤ f.length) :
    (writeBytes f pos d).take P = f.take P := by
  apply List.ext_getElem
  · simp [writeBytes_length]; omega
  · intro i hi1 hi2
    rw [List.getElem_take, List.getElem_take]
    have hir : i < P := by simp at hi1; omega
    have hif : i < f.length := by omega
    have hiw : i < (writeBytes f pos d).length := by rw [writeBytes_length]; omega
    rw [← List.getD_eq_getElem (writeBytes f pos d) 0 hiw,
      ← List.getD_eq_getElem f 0 hif, writeBytes_getD]
    rw [if_neg (by omega)]

/-- Every oracle entry is a (possibly short) successful write. -/
def allWrote : List WriteRes → Bool
  | [] => true
  | .wrote _ :: rest => allWrote rest
  | .ioErr :: _ => false

/-- Total number of bytes the oracle lets the loop write. -/
def oracleSum : List WriteRes → Nat
  | [] => 0
  | .wrote n :: rest => n + oracleSum rest
  | .ioErr :: rest => oracleSum rest

/-- The file produced by either outcome of `commitWrites`. -/
def exFile : Except (List Nat) (List Nat) → List Nat
  | .ok f => f
  | .error f => f

theorem commitWrites_take_below (bytes : List Nat) (startPos P : Nat)
    (hP : P ≤ startPos) :
    ∀ (oracle : List WriteRes) (file : List Nat) (tw : Nat)
      (r : Except (List Nat) (List Nat)), P ≤ file.length →
      commitWrites bytes startPos oracle file tw = some r →
      (exFile r).take P = file.take P := by
  intro oracle
  induction oracle with
  | nil =>
    intro file tw r hlen h
    rw [commitWrites] at h
    split at h
    · cases Option.some.inj h; rfl
    · exact absurd h (by simp)
  | cons o rest ih =>
    intro file tw r hlen h
    match o with
    | .ioErr =>
      rw [commitWrites] at h
      split at h
      · cases Option.some.inj h; rfl
      · cases Option.some.inj h; rfl
    | .wrote n =>
      rw [commitWrites] at h
      split at h
      · cases Option.some.inj h; rfl
      · simp only at h
        have hstep := ih _ _ _ (le_trans hlen (by rw [writeBytes_length]; omega)) h
        rw [hstep]
        exact (writeBytes_take_below _ _ _ _ (by omega) hlen)

theorem commitWrites_all_wrote (bytes : List Nat) (startPos : Nat) :
    ∀ (oracle : List WriteRes) (file : List Nat) (tw : Nat),
      allWrote oracle = true → bytes.length ≤ tw + oracleSum oracle →
      tw ≤ bytes.length → startPos + tw ≤ file.length →
      commitWrites bytes startPos oracle file tw =
        some (.ok (writeBytes file (startPos + tw) (bytes.drop tw))) := by
  intro oracle
  induction oracle with
  | nil =>
    intro file tw hall hsum htw hfit
    have htw' : tw = bytes.length := by simp [oracleSum] at hsum; omega
    rw [commitWrites, if_pos (by omega)]
    rw [List.drop_eq_nil_of_le (by omega), writeBytes_nil _ _ hfit]
  | cons o rest ih =>
    intro file tw hall hsum htw hfit
    match o with
    | .ioErr => exact absurd hall (by simp [allWrote])
    | .wrote n =>
      rw [commitWrites]
      by_cases hdone : bytes.length ≤ tw
      · rw [if_pos hdone]
        rw [List.drop_eq_nil_of_le hdone, writeBytes_nil _ _ hfit]
      · rw [if_neg hdone]
        simp only
        rw [ih _ _ (by simpa [allWrote] using hall)
          (by simp [oracleSum] at hsum ⊢; omega)
          (by omega)
          (by rw [writeBytes_length]; simp [List.length_take, List.length_drop]; omega)]
        rw [← Nat.add_assoc]
        rw [show bytes.drop (tw + min n (bytes.length - tw)) =
          (bytes.drop tw).drop (min n (bytes.length - tw)) by rw [List.drop_drop]]
        rw [writeBytes_compose _ _ _ _ (by simp [List.length_drop])]

/-! ## Claim theorems -/

/-- C10: `commit()` requires a non-empty buffer — committing a transaction on
which `append_chunk` was never called fails the `assert!(n_pages > 0)`
(modelled as `none`) instead of performing an empty durable write. -/
theorem commit_empty_buffer_asserts (st : StoreState) (tx : TxState)
    (oracle : List WriteRes) (fsyncOk : Bool)
    (h : tx.uncommittedPages = []) :
    commit st tx oracle fsyncOk = none := by
  simp [commit, h]

/-- Witness for `commit_empty_buffer_asserts` at a concrete fresh
transaction. -/
theorem commit_empty_buffer_asserts_witness :
    (mkTx ⟨[], 3⟩).uncommittedPages = [] ∧
      commit ⟨[], 3⟩ (mkTx ⟨[], 3⟩) [] true = none :=
  ⟨rfl, commit_empty_buffer_asserts ⟨[], 3⟩ (mkTx ⟨[], 3⟩) [] true rfl⟩

/-- C9: `lock_file_for_writing` matches the `flock` return status against
`0 => Ok` and `1 => Err`, but `flock` signals a held lock by returning `-1`,
which no arm matches (`none`, a malformed match rather than an
`AlreadyLocked` error — no such error variant exists in the source); the
`1` arm can never fire on a real `flock`. -/
theorem lock_failure_unhandled :
    lockFileForWriting 0 = some (.ok ()) ∧
    lockFileForWriting (-1) = none ∧
    lockFileForWriting 1 = some (.error ()) := by
  refine ⟨rfl, ?_, ?_⟩ <;> rfl

/-- C5: `append_chunk` never encodes any accepted payload: `n_pages` is
computed by `len + CHUNK_HEADER_SIZE / PAGE_SIZE`, which by operator
precedence equals `len`, not the intended `ceil((len + 8) / PAGE_SIZE)` the
assert message documents; filling `len` pages then panics in
`copy_to_slice` for lack of payload bytes.  So for every payload passing the
length assert, `append_chunk` panics (`none`) instead of returning
`ceil((len+8)/PAGE_SIZE)` encoded pages. -/
theorem append_chunk_never_encodes (tx : TxState) (chunk : List Nat)
    (hlen : (chunk.length + CHUNK_HEADER_SIZE) % PAGE_SIZE = 0)
    (hpos : 0 < chunk.length) :
    appendChunk tx chunk = none :=
  appendChunk_always_panics tx chunk hpos

/-- Witness for `append_chunk_never_encodes`: the smallest accepted payload,
4088 bytes (one intended page). -/
theorem append_chunk_never_encodes_witness :
    ((List.replicate 4088 5).length + CHUNK_HEADER_SIZE) % PAGE_SIZE = 0 ∧
    0 < (List.replicate 4088 5).length ∧
    appendChunk ⟨0, []⟩ (List.replicate 4088 5) = none :=
  ⟨by simp only [List.length_replicate, CHUNK_HEADER_SIZE, PAGE_SIZE],
    by simp only [List.length_replicate]; omega,
    append_chunk_never_encodes ⟨0, []⟩ (List.replicate 4088 5)
      (by simp only [List.length_replicate, CHUNK_HEADER_SIZE, PAGE_SIZE])
      (by simp only [List.length_replicate]; omega)⟩

/-- C4: if any I/O operation during `commit()` fails (a failed extent write
or a failed `fsync`), `page_len` is unchanged and the durable prefix of the
file — everything below `page_len * PAGE_SIZE` — is untouched, so the
store's state is unchanged on error and the buffered pages were never
consumed into it. -/
theorem commit_error_preserves_state (st : StoreState) (tx : TxState)
    (oracle : List WriteRes) (fsyncOk : Bool) (st' : StoreState)
    (hfile : st.file.length = st.pageLen * PAGE_SIZE)
    (h : commit st tx oracle fsyncOk = some (st', .error ())) :
    st'.pageLen = st.pageLen ∧
    st'.file.take (st.pageLen * PAGE_SIZE) = st.file := by
  simp only [commit] at h
  split at h
  · exact absurd h (by simp)
  · rename_i hn
    cases hw : commitWrites tx.uncommittedPages.flatten (st.pageLen * PAGE_SIZE)
        oracle st.file 0 with
    | none => rw [hw] at h; exact absurd h (by simp)
    | some r =>
      rw [hw] at h
      have hpre : (exFile r).take (st.pageLen * PAGE_SIZE) = st.file := by
        have hp := commitWrites_take_below tx.uncommittedPages.flatten
          (st.pageLen * PAGE_SIZE) (st.pageLen * PAGE_SIZE) le_rfl
          oracle st.file 0 r (le_of_eq hfile.symm) hw
        rw [hp, ← hfile, List.take_length]
      cases r with
      | error f =>
        simp only at h
        have h2 := Option.some.inj h
        have hst : st' = { file := f, pageLen := st.pageLen } :=
          (congrArg Prod.fst h2).symm
        subst hst
        exact ⟨rfl, by simpa [exFile] using hpre⟩
      | ok f =>
        simp only at h
        split at h
        · exact absurd (congrArg Prod.snd (Option.some.inj h)) (by simp)
        · have h2 := Option.some.inj h
          have hst : st' = { file := f, pageLen := st.pageLen } :=
            (congrArg Prod.fst h2).symm
          subst hst
          exact ⟨rfl, by simpa [exFile] using hpre⟩

/-- Witness for `commit_error_preserves_state`: a one-page transaction whose
first write submission fails. -/
theorem commit_error_preserves_state_witness :
    (StoreState.mk [] 0).file.length = (StoreState.mk [] 0).pageLen * PAGE_SIZE ∧
    commit ⟨[], 0⟩ ⟨0, [[1, 2, 3]]⟩ [.ioErr] true = some (⟨[], 0⟩, .error ()) ∧
    (StoreState.mk [] 0).pageLen = (StoreState.mk [] 0).pageLen ∧
    (StoreState.mk [] 0).file.take ((StoreState.mk [] 0).pageLen * PAGE_SIZE) =
      (StoreState.mk [] 0).file :=
  ⟨rfl, rfl,
    commit_error_preserves_state ⟨[], 0⟩ ⟨0, [[1, 2, 3]]⟩ [.ioErr] true ⟨[], 0⟩ rfl rfl⟩

/-- C3: `commit()` writes the whole buffered extent contiguously starting at
byte offset `prior_page_n * PAGE_SIZE`, looping over arbitrarily short
writes without surfacing them as errors, and advances `page_len` by exactly
the buffered page count only when the durability barrier succeeds: for every
error-free write oracle covering the extent, commit succeeds with the extent
written and `page_len` advanced (first conjunct), while the same commit with
a failed barrier leaves `page_len` unchanged (second conjunct); the
hypothesis `tx.priorPageN = st.pageLen` is the single-writer discipline —
`page_len` cannot move between `tx()` and `commit()`. -/
theorem commit_write_barrier_advance (st : StoreState) (tx : TxState)
    (oracle : List WriteRes)
    (hprior : tx.priorPageN = st.pageLen)
    (hfile : st.file.length = st.pageLen * PAGE_SIZE)
    (hne : tx.uncommittedPages ≠ [])
    (hall : allWrote oracle = true)
    (hsum : tx.uncommittedPages.flatten.length ≤ oracleSum oracle) :
    commit st tx oracle true =
      some ({ file := writeBytes st.file (tx.priorPageN * PAGE_SIZE)
                tx.uncommittedPages.flatten,
              pageLen := st.pageLen + tx.uncommittedPages.length }, .ok ()) ∧
    commit st tx oracle false =
      some ({ file := writeBytes st.file (tx.priorPageN * PAGE_SIZE)
                tx.uncommittedPages.flatten,
              pageLen := st.pageLen }, .error ()) := by
  have hw := commitWrites_all_wrote tx.uncommittedPages.flatten
    (st.pageLen * PAGE_SIZE) oracle st.file 0 hall (by omega) (by omega)
    (by omega)
  rw [Nat.add_zero, List.drop_zero] at hw
  have hn : ¬ tx.uncommittedPages.length = 0 := by
    simpa [List.length_eq_zero] using hne
  constructor <;>
    · simp only [commit]
      rw [if_neg hn, hw, hprior]
      simp

/-- Witness for `commit_write_barrier_advance`: a one-page transaction
written through two short writes. -/
theorem commit_write_barrier_advance_witness :
    ((⟨0, [[1, 2, 3]]⟩ : TxState).priorPageN = (StoreState.mk [] 0).pageLen ∧
     (StoreState.mk [] 0).file.length = (StoreState.mk [] 0).pageLen * PAGE_SIZE ∧
     (⟨0, [[1, 2, 3]]⟩ : TxState).uncommittedPages ≠ [] ∧
     allWrote [.wrote 2, .wrote 9] = true ∧
     (⟨0, [[1, 2, 3]]⟩ : TxState).uncommittedPages.flatten.length ≤
       oracleSum [.wrote 2, .wrote 9]) ∧
    commit ⟨[], 0⟩ ⟨0, [[1, 2, 3]]⟩ [.wrote 2, .wrote 9] true =
      some ({ file := writeBytes [] (0 * PAGE_SIZE) [1, 2, 3], pageLen := 0 + 1 },
        .ok ()) :=
  ⟨⟨rfl, rfl, by simp, rfl, by simp [oracleSum]⟩,
    (commit_write_barrier_advance ⟨[], 0⟩ ⟨0, [[1, 2, 3]]⟩ [.wrote 2, .wrote 9]
      rfl rfl (by simp) rfl (by simp [oracleSum])).1⟩

/-- Running a sequence of `append` operations either panics inside
`append_chunk` or reaches a session with the same store state and some
transaction buffer. -/
theorem runOps_appends (chunks : List (List Nat)) :
    ∀ (st : StoreState) (tx : TxState) (rest : List WriterOp),
      runOps (st, some tx) (chunks.map WriterOp.append ++ rest) = none ∨
      ∃ tx', runOps (st, some tx) (chunks.map WriterOp.append ++ rest) =
        runOps (st, some tx') rest := by
  induction chunks with
  | nil => intro st tx rest; exact Or.inr ⟨tx, by simp⟩
  | cons c cs ih =>
    intro st tx rest
    simp only [List.map_cons, List.cons_append, runOps, stepOp]
    cases happ : appendChunk tx c with
    | none => exact Or.inl (by simp)
    | some r => simpa using ih st r.1 rest

/-- C6: dropping a write transaction without committing leaves `page_len` and
the file content unchanged (the final store state is exactly the initial
one), and the next transaction from the same writer starts at the same first
page index: after begin, any sequence of appends, drop, begin, the session
ends at `(st, some (mkTx st))` — the second transaction's `prior_page_n`
equals the dropped one's. -/
theorem tx_drop_rollback (st : StoreState) (chunks : List (List Nat))
    (s' : StoreState × Option TxState)
    (h : runOps (st, none)
      (WriterOp.beginTx :: (chunks.map WriterOp.append ++
        [WriterOp.dropTx, WriterOp.beginTx])) = some s') :
    s'.1 = st ∧ s'.2 = some (mkTx st) := by
  simp only [runOps, stepOp] at h
  rcases runOps_appends chunks st (mkTx st) [WriterOp.dropTx, WriterOp.beginTx] with
    hnone | ⟨tx', htx⟩
  · rw [hnone] at h; exact absurd h (by simp)
  · rw [htx] at h
    simp only [runOps, stepOp] at h
    cases Option.some.inj h
    exact ⟨rfl, rfl⟩

/-- Witness for `tx_drop_rollback`: begin, drop, begin on a store with two
durable pages. -/
theorem tx_drop_rollback_witness :
    runOps ((⟨[9], 2⟩ : StoreState), none)
      (WriterOp.beginTx :: (([] : List (List Nat)).map WriterOp.append ++
        [WriterOp.dropTx, WriterOp.beginTx])) =
      some (⟨[9], 2⟩, some (mkTx ⟨[9], 2⟩)) ∧
    ((⟨[9], 2⟩, some (mkTx ⟨[9], 2⟩)) : StoreState × Option TxState).1 =
      ⟨[9], 2⟩ :=
  ⟨rfl, (tx_drop_rollback ⟨[9], 2⟩ [] (⟨[9], 2⟩, some (mkTx ⟨[9], 2⟩)) rfl).1⟩

theorem filter_ne_contains_false (l : List Nat) (idx : Nat) :
    ((l.filter fun j => j != idx).contains idx) = false := by
  induction l with
  | nil => rfl
  | cons a t ih =>
    by_cases ha : a = idx
    · simp [List.filter_cons, ha, ih]
    · simp only [List.filter_cons]
      rw [if_pos (by simp [ha])]
      simp only [List.contains_cons, ih, Bool.or_false, beq_eq_false_iff_ne]
      exact Ne.symm ha

/-- C8: the caches never retain a resolved failure.  In `page_cache.rs`, a
load completing with `Err` inserts nothing into the LRU and removes the
in-flight marker, so the next `get` for that index (absent a cached success)
starts a fresh load; in `chunk_cache.rs`, `use_cached_load` rejects a stored
shared load that resolved to `Err`, so `get` starts a fresh load instead of
replaying it. -/
theorem cache_never_retains_err (cap : Nat) (s : ShardState) (idx : Nat)
    (e : RetrieveError)
    (rest : List (Nat × Option (Except RetrieveError (List Nat))))
    (hmiss : lruLookup s.cache idx = none) :
    (onLoadComplete cap s idx (.error e)).cache = s.cache ∧
    ((onLoadComplete cap s idx (.error e)).loads.contains idx) = false ∧
    cacheShardGet (onLoadComplete cap s idx (.error e)) idx = .fresh ∧
    useCachedLoad (some (.error e)) = false ∧
    chunkCacheGet ((idx, some (.error e)) :: rest) idx = true := by
  refine ⟨rfl, filter_ne_contains_false s.loads idx, ?_, rfl, ?_⟩
  · simp only [cacheShardGet, onLoadComplete, hmiss]
    rw [if_neg (by simp [filter_ne_contains_false s.loads idx])]
  · simp [chunkCacheGet, useCachedLoad]

/-- Witness for `cache_never_retains_err`: a shard whose only activity is the
failing in-flight load for index 3. -/
theorem cache_never_retains_err_witness :
    lruLookup (ShardState.mk [] [3]).cache 3 = none ∧
    (cacheShardGet (onLoadComplete 4 ⟨[], [3]⟩ 3 (.error .Io)) 3 = .fresh ∧
     chunkCacheGet [(3, some (.error .Io))] 3 = true) :=
  ⟨rfl,
    (cache_never_retains_err 4 ⟨[], [3]⟩ 3 .Io [] rfl).2.2.1,
    (cache_never_retains_err 4 ⟨[], [3]⟩ 3 .Io [] rfl).2.2.2.2⟩

theorem readIntoPagesVec_first (file : List (List Nat)) (idx hint : Nat)
    (hh : idx + hint + 1 ≤ file.length) :
    readIntoPagesVec file idx [] (hint + 1) =
      .ok ((file.drop idx).take (hint + 1)) := by
  simp only [readIntoPagesVec, List.length_nil, Nat.add_zero, Nat.sub_zero]
  have hmin : min (hint + 1) (file.length - idx) = hint + 1 := by omega
  rw [hmin, if_neg (by omega)]
  simp

theorem seg_length (file : List (List Nat)) (idx n : Nat)
    (hfit : idx + n ≤ file.length) :
    ((file.drop idx).take n).length = n := by
  simp [List.length_take, List.length_drop]
  omega

theorem seg_headD (file : List (List Nat)) (idx n : Nat)
    (hidx : idx < file.length) (hn : 0 < n) :
    ((file.drop idx).take n).headD [] = file.getD idx [] := by
  obtain ⟨m, rfl⟩ : ∃ m, n = m + 1 := ⟨n - 1, by omega⟩
  rw [List.drop_eq_getElem_cons hidx, List.take_succ_cons, List.headD_cons,
    List.getD_eq_getElem _ _ hidx]

theorem seg_append (file : List (List Nat)) (idx a b : Nat) :
    (file.drop idx).take a ++ (file.drop (idx + a)).take b =
      (file.drop idx).take (a + b) := by
  rw [List.take_add, List.drop_drop]

theorem readLoop_done (file : List (List Nat)) (idx cap total : Nat)
    (pages : List (List Nat)) (h : total ≤ pages.length) :
    readLoop file idx cap total pages = .ok pages := by
  rw [readLoop, if_pos h]

theorem readLoop_completes (file : List (List Nat)) (idx total k : Nat)
    (hk : k < total) (hfit : idx + total ≤ file.length) :
    readLoop file idx total total ((file.drop idx).take k) =
      .ok ((file.drop idx).take total) := by
  have hklen := seg_length file idx k (by omega)
  have hr : readIntoPagesVec file idx ((file.drop idx).take k) total =
      .ok ((file.drop idx).take total) := by
    simp only [readIntoPagesVec, hklen]
    have hmin : min (total - k) (file.length - (idx + k)) = total - k := by omega
    rw [hmin, if_neg (by omega), seg_append]
    have hkk : k + (total - k) = total := by omega
    rw [hkk]
  rw [readLoop, if_neg (by omega)]
  split
  · rename_i e heq
    rw [hr] at heq
    exact absurd heq (by simp)
  · rename_i pages' heq
    rw [hr] at heq
    have hp := Except.ok.inj heq
    subst hp
    exact readLoop_done _ _ _ _ _ (by rw [seg_length file idx total hfit])

theorem readLoop_out_end (file : List (List Nat)) (idx cap total k : Nat)
    (hk : k < total) (hend : idx + k = file.length) :
    readLoop file idx cap total ((file.drop idx).take k) =
      .error .OutOfPages := by
  have hklen := seg_length file idx k (by omega)
  rw [readLoop, if_neg (by omega)]
  split
  · rename_i e heq
    simp only [readIntoPagesVec, hklen] at heq
    rw [show file.length - (idx + k) = 0 by omega] at heq
    simp at heq
    rw [heq]
  · rename_i pages' heq
    simp only [readIntoPagesVec, hklen] at heq
    rw [show file.length - (idx + k) = 0 by omega] at heq
    simp at heq

theorem readLoop_out (file : List (List Nat)) (idx total k : Nat)
    (hk : k < total) (hkfile : idx + k ≤ file.length)
    (hover : file.length < idx + total) :
    readLoop file idx total total ((file.drop idx).take k) =
      .error .OutOfPages := by
  rcases eq_or_lt_of_le hkfile with hend | hlt
  · exact readLoop_out_end file idx total total k hk hend
  · have hklen := seg_length file idx k (by omega)
    have hmin : min (total - k) (file.length - (idx + k)) =
        file.length - (idx + k) := by omega
    rw [readLoop, if_neg (by omega)]
    split
    · rename_i e heq
      simp only [readIntoPagesVec, hklen] at heq
      rw [hmin] at heq
      rw [if_neg (by omega)] at heq
      exact absurd heq (by simp)
    · rename_i pages' heq
      simp only [readIntoPagesVec, hklen] at heq
      rw [hmin] at heq
      rw [if_neg (by omega)] at heq
      have hp := Except.ok.inj heq
      have hp2 : pages' = (file.drop idx).take (file.length - idx) := by
        rw [← hp, seg_append]
        congr 1
        omega
      rw [hp2]
      exact readLoop_out_end file idx total total (file.length - idx)
        (by omega) (by omega)

/-- On any in-bounds hint, `get_chunk` computes the hint-free result
`getChunkSpec`: the hint affects only how many pages the first read grabs. -/
theorem getChunk_eq_spec (file : List (List Nat)) (idx hint : Nat)
    (hh : idx + hint + 1 ≤ file.length) :
    getChunk file idx hint = getChunkSpec file idx := by
  have hidx : idx < file.length := by omega
  have hfirst := readIntoPagesVec_first file idx hint hh
  simp only [getChunk, hfirst, seg_headD file idx (hint + 1) hidx (Nat.succ_pos hint),
    seg_length file idx (hint + 1) (by omega), getChunkSpec,
    if_neg (not_le.mpr hidx)]
  rcases Nat.lt_trichotomy (leU32 (file.getD idx []) 0 + 1) (hint + 1) with
    hA | hB | hC
  · rw [if_pos hA]
    simp only [List.take_take, Nat.min_eq_left (Nat.le_of_lt hA)]
    rw [if_pos (show idx + (leU32 (file.getD idx []) 0 + 1) ≤ file.length
      by omega)]
  · rw [if_neg (by omega), if_neg (by omega), hB]
    simp only []
    rw [if_pos (by omega : idx + (hint + 1) ≤ file.length)]
  · rw [if_neg (by omega), if_pos hC,
      Nat.max_eq_right (by omega : hint + 1 ≤ leU32 (file.getD idx []) 0 + 1)]
    by_cases hfit : idx + (leU32 (file.getD idx []) 0 + 1) ≤ file.length
    · rw [readLoop_completes file idx (leU32 (file.getD idx []) 0 + 1) (hint + 1)
        (by omega) hfit]
      simp only []
      rw [if_pos hfit]
    · rw [readLoop_out file idx (leU32 (file.getD idx []) 0 + 1) (hint + 1)
        (by omega) (by omega) (by omega)]
      simp only []
      rw [if_neg hfit]

/-- C7: for any two hints whose page ranges stay inside the file,
`get_chunk(idx, hint1)` and `get_chunk(idx, hint2)` return the same result —
the hint changes only the I/O batching, never the outcome. -/
theorem get_chunk_hint_independent (file : List (List Nat)) (idx h1 h2 : Nat)
    (hh1 : idx + h1 + 1 ≤ file.length) (hh2 : idx + h2 + 1 ≤ file.length) :
    getChunk file idx h1 = getChunk file idx h2 := by
  rw [getChunk_eq_spec file idx h1 hh1, getChunk_eq_spec file idx h2 hh2]

/-- Witness for `get_chunk_hint_independent`: a two-page file read with
hint 0 and hint 1. -/
theorem get_chunk_hint_independent_witness :
    0 + 0 + 1 ≤ ([[0, 0, 0, 0, 9, 9, 9, 9], [1, 2, 3]] : List (List Nat)).length ∧
    0 + 1 + 1 ≤ ([[0, 0, 0, 0, 9, 9, 9, 9], [1, 2, 3]] : List (List Nat)).length ∧
    getChunk [[0, 0, 0, 0, 9, 9, 9, 9], [1, 2, 3]] 0 0 =
      getChunk [[0, 0, 0, 0, 9, 9, 9, 9], [1, 2, 3]] 0 1 :=
  ⟨by decide, by decide,
    get_chunk_hint_independent [[0, 0, 0, 0, 9, 9, 9, 9], [1, 2, 3]] 0 0 1
      (by decide) (by decide)⟩

/-- C2: the checksum comparison in `get_chunk` is inverted.  Whenever the
declared pages of the chunk at `idx` are all inside the file, the read fails
with `BadChecksum` exactly when the stored checksum EQUALS the CRC-32
recomputed over the reassembled content (header stripped), and successfully
returns the content exactly when they DIFFER — the opposite of the claim:
a valid chunk is always rejected and a corrupted one is returned. -/
theorem get_chunk_checksum_inverted (file : List (List Nat)) (idx hint : Nat)
    (hh : idx + hint + 1 ≤ file.length)
    (htotal : idx + (leU32 (file.getD idx []) 0 + 1) ≤ file.length) :
    (leU32 (file.getD idx []) 4 =
        crc32 (((file.drop idx).take (leU32 (file.getD idx []) 0 + 1)).flatten.drop
          CHUNK_HEADER_SIZE) →
      getChunk file idx hint = .error .BadChecksum) ∧
    (leU32 (file.getD idx []) 4 ≠
        crc32 (((file.drop idx).take (leU32 (file.getD idx []) 0 + 1)).flatten.drop
          CHUNK_HEADER_SIZE) →
      getChunk file idx hint =
        .ok (((file.drop idx).take (leU32 (file.getD idx []) 0 + 1)).flatten.drop
          CHUNK_HEADER_SIZE)) := by
  rw [getChunk_eq_spec file idx hint hh, getChunkSpec,
    if_neg (not_le.mpr (show idx < file.length by omega))]
  simp only []
  rw [if_pos htotal]
  constructor
  · intro hceq
    rw [if_pos hceq]
  · intro hcne
    rw [if_neg hcne]

/-- Witness for `get_chunk_checksum_inverted`: a one-page chunk whose stored
checksum matches the recomputed one (and is rejected), and one whose stored
checksum differs (and is returned). -/
theorem get_chunk_checksum_inverted_witness :
    (getChunk [[0, 0, 0, 0, 0, 0, 0, 0]] 0 0 = .error .BadChecksum ∧
     getChunk [[0, 0, 0, 0, 1, 0, 0, 0]] 0 0 = .ok []) :=
  ⟨(get_chunk_checksum_inverted [[0, 0, 0, 0, 0, 0, 0, 0]] 0 0
      (by decide) (by decide)).1 (by decide),
    by
      have := (get_chunk_checksum_inverted [[0, 0, 0, 0, 1, 0, 0, 0]] 0 0
        (by decide) (by decide)).2 (by decide)
      simpa using this⟩

theorem chopPages_flatten (l : List Nat) : (chopPages l).flatten = l := by
  induction l using chopPages.induct with
  | case1 => simp [chopPages]
  | case2 l hl ih =>
    rw [chopPages, dif_neg hl]
    simp only [List.flatten_cons, ih, List.take_append_drop]

theorem chopPages_length (l : List Nat) :
    (chopPages l).length = (l.length + (PAGE_SIZE - 1)) / PAGE_SIZE := by
  induction l using chopPages.induct with
  | case1 => simp [chopPages]; decide
  | case2 l hl ih =>
    rw [chopPages, dif_neg hl]
    have hlp : 0 < l.length := List.length_pos.mpr hl
    simp only [List.length_cons, ih, List.length_drop, PAGE_SIZE] at *
    omega

theorem chopPages_head (l : List Nat) (hl : l ≠ []) :
    (chopPages l).getD 0 [] = l.take PAGE_SIZE := by
  rw [chopPages, dif_neg hl]
  rfl

theorem getD_take (l : List Nat) (n i : Nat) (h : i < n) :
    (l.take n).getD i 0 = l.getD i 0 := by
  rcases Nat.lt_or_ge i l.length with hi | hi
  · rw [List.getD_eq_getElem _ _ (by simp [List.length_take]; omega),
      List.getD_eq_getElem _ _ hi, List.getElem_take]
  · rw [List.getD_eq_default _ _ (by simp [List.length_take]; omega),
      List.getD_eq_default _ _ hi]

theorem getD_take_pages (l : List (List Nat)) (n i : Nat) (h : i < n) :
    (l.take n).getD i [] = l.getD i [] := by
  rcases Nat.lt_or_ge i l.length with hi | hi
  · rw [List.getD_eq_getElem _ _ (by simp [List.length_take]; omega),
      List.getD_eq_getElem _ _ hi, List.getElem_take]
  · rw [List.getD_eq_default _ _ (by simp [List.length_take]; omega),
      List.getD_eq_default _ _ hi]

theorem leU32_header (a b : Nat) (rest : List Nat) :
    leU32 (encodeLe32 a ++ encodeLe32 b ++ rest) 0 = a % 2 ^ 32 ∧
    leU32 (encodeLe32 a ++ encodeLe32 b ++ rest) 4 = b % 2 ^ 32 := by
  simp [leU32, encodeLe32, List.getD]
  constructor <;> omega

theorem crc32Step_lt (c : Nat) (h : c < 2 ^ 32) : crc32Step c < 2 ^ 32 := by
  have h1 : c >>> 1 < 2 ^ 32 :=
    lt_of_le_of_lt (by rw [Nat.shiftRight_eq_div_pow]; exact Nat.div_le_self c 2) h
  unfold crc32Step
  split
  · exact Nat.xor_lt_two_pow h1 (by norm_num)
  · simpa using h1

theorem crc32Byte_lt (c b : Nat) (hc : c < 2 ^ 32) (hb : b < 256) :
    crc32Byte c b < 2 ^ 32 := by
  have h0 : c ^^^ b < 2 ^ 32 :=
    Nat.xor_lt_two_pow hc (lt_trans hb (by norm_num))
  unfold crc32Byte
  exact crc32Step_lt _ (crc32Step_lt _ (crc32Step_lt _ (crc32Step_lt _
    (crc32Step_lt _ (crc32Step_lt _ (crc32Step_lt _ (crc32Step_lt _ h0)))))))

theorem crc32_lt (l : List Nat) (h : ∀ b ∈ l, b < 256) : crc32 l < 2 ^ 32 := by
  unfold crc32
  have hf : ∀ (l' : List Nat) (acc : Nat), acc < 2 ^ 32 → (∀ b ∈ l', b < 256) →
      l'.foldl crc32Byte acc < 2 ^ 32 := by
    intro l'
    induction l' with
    | nil => intro acc hacc _; simpa using hacc
    | cons x t ih =>
      intro acc hacc hb
      rw [List.foldl_cons]
      exact ih _ (crc32Byte_lt _ _ hacc (hb x (by simp)))
        fun b hbm => hb b (by simp [hbm])
  exact Nat.xor_lt_two_pow (hf l 0xFFFFFFFF (by norm_num) h) (by norm_num)

theorem leU32_take (l : List Nat) (n off : Nat) (h : off + 3 < n) :
    leU32 (l.take n) off = leU32 l off := by
  rw [leU32, leU32, getD_take _ _ _ (by omega), getD_take _ _ _ (by omega),
    getD_take _ _ _ (by omega), getD_take _ _ _ (by omega)]

/-- C1: the round-trip `decode(encode(p)) = p` fails for every payload the
writer accepts.  First, the source's encoder (`append_chunk`) panics on
every accepted payload (the `n_pages` precedence bug), so the code's own
round trip cannot even produce pages.  Second, even a chunk encoded exactly
as the spec prescribes (`specEncode`) is rejected by `get_chunk` with
`BadChecksum`, because its stored checksum matches the recomputed one and
the source's comparison is inverted. -/
theorem chunk_roundtrip_impossible (p : List Nat)
    (hlen : (p.length + CHUNK_HEADER_SIZE) % PAGE_SIZE = 0)
    (hpos : 0 < p.length)
    (hbound : p.length + CHUNK_HEADER_SIZE ≤ 2 ^ 32 * PAGE_SIZE)
    (hbytes : ∀ b ∈ p, b < 256) :
    appendChunk (mkTx ⟨[], 0⟩) p = none ∧
    getChunk (specEncode p) 0 0 = .error .BadChecksum := by
  refine ⟨appendChunk_always_panics _ _ hpos, ?_⟩
  set T := (p.length + CHUNK_HEADER_SIZE + PAGE_SIZE - 1) / PAGE_SIZE with hT
  have hTmul : T * PAGE_SIZE = p.length + CHUNK_HEADER_SIZE := by
    rw [hT]; simp only [PAGE_SIZE, CHUNK_HEADER_SIZE] at *; omega
  have hT1 : 1 ≤ T := by
    simp only [PAGE_SIZE, CHUNK_HEADER_SIZE] at hTmul; omega
  have hTle : T ≤ 2 ^ 32 := by
    simp only [PAGE_SIZE, CHUNK_HEADER_SIZE] at hTmul hbound; omega
  have hpad : T * PAGE_SIZE - CHUNK_HEADER_SIZE - p.length = 0 := by omega
  have hbodyeq : specEncode p =
      chopPages (encodeLe32 (T - 1) ++ encodeLe32 (crc32 p) ++ p) := by
    simp only [specEncode, ← hT]
    rw [hpad, List.replicate_zero, List.append_nil]
  have hblen : (encodeLe32 (T - 1) ++ encodeLe32 (crc32 p) ++ p).length =
      T * PAGE_SIZE := by
    simp [encodeLe32]
    simp only [CHUNK_HEADER_SIZE] at hTmul
    omega
  have hfl : (specEncode p).length = T := by
    rw [hbodyeq, chopPages_length, hblen]
    simp only [PAGE_SIZE]
    omega
  have hbne : encodeLe32 (T - 1) ++ encodeLe32 (crc32 p) ++ p ≠ [] := by
    simp [encodeLe32]
  have hfirst : (specEncode p).getD 0 [] =
      (encodeLe32 (T - 1) ++ encodeLe32 (crc32 p) ++ p).take PAGE_SIZE := by
    rw [hbodyeq, chopPages_head _ hbne]
  have hov : leU32 ((specEncode p).getD 0 []) 0 = T - 1 := by
    rw [hfirst, leU32_take _ _ _ (by simp [PAGE_SIZE]),
      (leU32_header (T - 1) (crc32 p) p).1]
    exact Nat.mod_eq_of_lt (by omega)
  have hcs : leU32 ((specEncode p).getD 0 []) 4 = crc32 p := by
    rw [hfirst, leU32_take _ _ _ (by simp [PAGE_SIZE]),
      (leU32_header (T - 1) (crc32 p) p).2]
    exact Nat.mod_eq_of_lt (crc32_lt p hbytes)
  have hcontent : (((specEncode p).drop 0).take (T - 1 + 1)).flatten.drop
      CHUNK_HEADER_SIZE = p := by
    rw [show T - 1 + 1 = T by omega, List.drop_zero, ← hfl, List.take_length,
      hbodyeq, chopPages_flatten,
      show CHUNK_HEADER_SIZE = (encodeLe32 (T - 1) ++ encodeLe32 (crc32 p)).length
        by simp [encodeLe32, CHUNK_HEADER_SIZE]]
    exact List.drop_left _ _
  rw [getChunk_eq_spec _ 0 0 (by rw [hfl]; omega), getChunkSpec,
    if_neg (by rw [hfl]; omega)]
  simp only [hov, hcs]
  rw [if_pos (by rw [hfl]; omega), hcontent, if_pos rfl]

/-- Witness for `chunk_roundtrip_impossible`: the 4088-byte zero payload (one
intended page). -/
theorem chunk_roundtrip_impossible_witness :
    (((List.replicate 4088 0).length + CHUNK_HEADER_SIZE) % PAGE_SIZE = 0 ∧
     0 < (List.replicate 4088 0).length ∧
     (List.replicate 4088 0).length + CHUNK_HEADER_SIZE ≤ 2 ^ 32 * PAGE_SIZE ∧
     ∀ b ∈ List.replicate 4088 0, b < 256) ∧
    appendChunk (mkTx ⟨[], 0⟩) (List.replicate 4088 0) = none ∧
    getChunk (specEncode (List.replicate 4088 0)) 0 0 = .error .BadChecksum :=
  ⟨⟨by simp only [List.length_replicate, CHUNK_HEADER_SIZE, PAGE_SIZE],
    by simp only [List.length_replicate]; omega,
    by simp only [List.length_replicate, CHUNK_HEADER_SIZE, PAGE_SIZE]; omega,
    by intro b hb; rw [List.eq_of_mem_replicate hb]; omega⟩,
    chunk_roundtrip_impossible (List.replicate 4088 0)
      (by simp only [List.length_replicate, CHUNK_HEADER_SIZE, PAGE_SIZE])
      (by simp only [List.length_replicate]; omega)
      (by simp only [List.length_replicate, CHUNK_HEADER_SIZE, PAGE_SIZE]; omega)
      (by intro b hb; rw [List.eq_of_mem_replicate hb]; omega)⟩
